import Mathlib

/-!
# Verification of the AML rule engine's velocity evaluators

A shallow embedding of the Go AML rule engine: the shared sliding-window
velocity rule, the sequential evaluator (`VelocityProcessor.Process`), the
worker-pool evaluator (`WorkerVelocityProcessor.Process`) and the pipelined
fan-out/fan-in evaluator (`ConcurrentVelocityProcessor.Process`), together
with the `RuleEngine` combinator boundary.

Modelling conventions:
* `uuid.UUID` user identifiers become `Nat` (opaque, equality-comparable);
* `time.Time` timestamps and `time.Duration` values become `Int`
  nanoseconds (`time.Sub` returns the signed nanosecond difference);
* `decimal.Decimal` amounts become `Int` (untouched by the velocity rule);
* the Go `map[uuid.UUID]struct{}` result becomes a `Finset Nat`;
* Go map iteration order is unspecified, so evaluators that fold their
  per-user results in an execution-dependent order are given an explicit
  `order` parameter (`ProcessIn`), constrained to be a permutation of the
  distinct user ids; the `Process` wrapper fixes the canonical order.
-/

/-- Embeds the Go struct `Transaction` from `aml_rule_engine.go`:
user identifier, exact-decimal amount, country code, creation timestamp. -/
structure Transaction where
  userId : Nat
  amount : Int
  country : String
  createdAt : Int
deriving DecidableEq

/-- Embeds the Go struct `VelocityPeriod` (duration plus count threshold)
from `amount_processor.go`.  Both fields are signed in Go (`time.Duration`,
`int`), so both are `Int` here. -/
structure VelocityPeriod where
  duration : Int
  threshold : Int
deriving DecidableEq

/-- Embeds `NewVelocityPeriod` from `amount_processor.go`. -/
def NewVelocityPeriod (period : Int) (threshold : Int) : VelocityPeriod :=
  { duration := period, threshold := threshold }

/-- Go constant `week = 7 * 24 * time.Hour` in nanoseconds. -/
def weekNs : Int := 7 * 24 * 3600 * 1000000000

/-- Go constant `month = 30 * 24 * time.Hour` in nanoseconds. -/
def monthNs : Int := 30 * 24 * 3600 * 1000000000

/-- One hour in nanoseconds (`time.Hour`). -/
def hourNs : Int := 3600 * 1000000000

/-- One day in nanoseconds (`24 * time.Hour`). -/
def dayNs : Int := 24 * 3600 * 1000000000

/-- The inner `for left <= right && txs[right].CreatedAt.Sub(txs[left].CreatedAt) > period.Duration`
loop of `hasViolatedVelocity`, advancing the left boundary of the window.
The structural fuel `gap` is `right + 1 - left`, so `gap = 0` exactly when
`left > right`; the wrapper `advanceLeft` instantiates it. -/
def advanceLeftAux (ts : List Int) (d : Int) (right : Nat) : Nat → Nat → Nat
  | left, 0 => left
  | left, gap + 1 =>
    if ts.getD right 0 - ts.getD left 0 > d then
      advanceLeftAux ts d right (left + 1) gap
    else
      left

/-- The left-boundary advance of the sliding window: starting from `left`,
increment while `left ≤ right` and the timestamp spread exceeds `d`. -/
def advanceLeft (ts : List Int) (d : Int) (right left : Nat) : Nat :=
  advanceLeftAux ts d right left (right + 1 - left)

/-- The outer `for right := 0; right < len(txs); right++` loop of
`hasViolatedVelocity` in `amount_processor.go`: advance the left boundary,
compute `windowSize := right - left + 1` (Go `int` arithmetic, hence `Int`),
and report a violation as soon as `windowSize > period.Threshold`.
The structural fuel `rem` is `ts.length - right`. -/
def slideAux (ts : List Int) (p : VelocityPeriod) : Nat → Nat → Nat → Bool
  | _, _, 0 => false
  | left, right, rem + 1 =>
    let L := advanceLeft ts p.duration right left
    if p.threshold < (right : Int) - (L : Int) + 1 then
      true
    else
      slideAux ts p L (right + 1) rem

/-- Embeds `VelocityProcessor.hasViolatedVelocity` from `amount_processor.go`
(the identical copies in the worker-pool and pipeline files are embedded by
the same function).  The rule reads only the `CreatedAt` field of the
transactions, so it is stated on the list of timestamps. -/
def hasViolatedVelocity (ts : List Int) (p : VelocityPeriod) : Bool :=
  slideAux ts p 0 0 ts.length

/-- Embeds `hasViolatedVelocityPeriods`: any configured period violated
(short-circuiting OR over the period list). -/
def hasViolatedVelocityPeriods (periods : List VelocityPeriod) (ts : List Int) : Bool :=
  periods.any (fun p => hasViolatedVelocity ts p)

/-- The distinct user identifiers of a batch — the key set of the Go
`userTransactions` map built by the partition loop. -/
def userIds (txs : List Transaction) : List Nat :=
  (txs.map Transaction.userId).dedup

/-- One user's transactions, in input order — the value
`userTransactions[u]` of the Go partition map (`append` preserves input
order within a user). -/
def userTxs (txs : List Transaction) (u : Nat) : List Transaction :=
  txs.filter (fun tx => tx.userId == u)

/-- One user's timestamps after the evaluator's
`sort.Slice(txs, func(i, j int) bool { return txs[i].CreatedAt.Before(txs[j].CreatedAt) })`:
`sort.Slice` is an unstable sort by `CreatedAt`, so the resulting timestamp
sequence is the sorted timestamp list, which is what the rule consumes. -/
def sortedTimes (txs : List Transaction) (u : Nat) : List Int :=
  List.insertionSort (· ≤ ·) ((userTxs txs u).map Transaction.createdAt)

/-- The flagged-user set obtained by evaluating each user of `order` with
the shared per-user computation (sort by timestamp, then
`hasViolatedVelocityPeriods`) and folding violators into the result set —
the common core of all three evaluators, parameterised by the order in
which per-user results are folded (Go map iteration / channel arrival
order). -/
def flaggedFrom (periods : List VelocityPeriod) (txs : List Transaction)
    (order : List Nat) : Finset Nat :=
  (order.filter (fun u => hasViolatedVelocityPeriods periods (sortedTimes txs u))).toFinset

/-- Embeds the Go struct `VelocityProcessor` from `amount_processor.go`. -/
structure VelocityProcessor where
  Periods : List VelocityPeriod

/-- Embeds `NewVelocityValidator` from `amount_processor.go`. -/
def NewVelocityValidator (periods : List VelocityPeriod) : VelocityProcessor :=
  { Periods := periods }

/-- Embeds the sequential `VelocityProcessor.Process`: partition by user,
sort each user's transactions by timestamp, flag the user iff some period
is violated.  The Go map iteration order is unspecified but only the
resulting set is returned. -/
def VelocityProcessor.Process (v : VelocityProcessor) (txs : List Transaction) : Finset Nat :=
  flaggedFrom v.Periods txs (userIds txs)

/-- Embeds the Go struct `WorkerVelocityProcessor` (worker-pool file). -/
structure WorkerVelocityProcessor where
  Periods : List VelocityPeriod
  WorkerCount : Int

/-- Embeds `NewWorkerVelocityProcessor`: a non-positive `workerCount` is
replaced by the default of 4. -/
def NewWorkerVelocityProcessor (periods : List VelocityPeriod) (workerCount : Int) :
    WorkerVelocityProcessor :=
  if workerCount ≤ 0 then
    { Periods := periods, WorkerCount := 4 }
  else
    { Periods := periods, WorkerCount := workerCount }

/-- Denotation of `WorkerVelocityProcessor.Process` under a never-cancelled
context, with `order` the execution-dependent order in which the per-user
results arrive on the result channel.  With at least one worker every
enqueued `UserJob` is processed exactly once and its `UserResult` folded
into the set; with `WorkerCount ≤ 0` the loop `for i := 0; i < v.WorkerCount; i++`
starts no worker, `wg.Wait()` returns at once, the result channel is closed
empty, and the aggregation returns the empty map. -/
def WorkerVelocityProcessor.ProcessIn (v : WorkerVelocityProcessor)
    (txs : List Transaction) (order : List Nat) : Finset Nat :=
  if v.WorkerCount ≤ 0 then ∅ else flaggedFrom v.Periods txs order

/-- `WorkerVelocityProcessor.Process` with the canonical fold order. -/
def WorkerVelocityProcessor.Process (v : WorkerVelocityProcessor)
    (txs : List Transaction) : Finset Nat :=
  v.ProcessIn txs (userIds txs)

/-- Embeds the Go struct `ConcurrentVelocityProcessor` (fan-out/fan-in
pipeline file). -/
structure ConcurrentVelocityProcessor where
  Periods : List VelocityPeriod
  WorkerCount : Int

/-- Embeds `NewConcurrentVelocityProcessor`: the worker count is stored
unchanged — unlike `NewWorkerVelocityProcessor`, no default is substituted
for a non-positive value. -/
def NewConcurrentVelocityProcessor (periods : List VelocityPeriod) (workerCount : Int) :
    ConcurrentVelocityProcessor :=
  { Periods := periods, WorkerCount := workerCount }

/-- Denotation of `ConcurrentVelocityProcessor.Process` (fanOut → process →
fanIn) under a never-cancelled context, with `order` the arrival order of
results.  With `WorkerCount ≤ 0`, `process` starts no worker goroutine,
immediately closes the result channel, and `fanIn` returns the empty map. -/
def ConcurrentVelocityProcessor.ProcessIn (v : ConcurrentVelocityProcessor)
    (txs : List Transaction) (order : List Nat) : Finset Nat :=
  if v.WorkerCount ≤ 0 then ∅ else flaggedFrom v.Periods txs order

/-- `ConcurrentVelocityProcessor.Process` with the canonical fold order. -/
def ConcurrentVelocityProcessor.Process (v : ConcurrentVelocityProcessor)
    (txs : List Transaction) : Finset Nat :=
  v.ProcessIn txs (userIds txs)

/-- The `RuleProcessor` Go interface, viewed by its denotation: a map from a
transaction batch to a flagged-user set. -/
def RuleProcessor : Type := List Transaction → Finset Nat

/-- Embeds the Go struct `RuleEngine` from `aml_rule_engine.go`. -/
structure RuleEngine where
  processors : List RuleProcessor

/-- Embeds `NewRuleEngine` from `aml_rule_engine.go`: the `validators`
argument is unused; the engine starts with
`processors: make([]RuleProcessor, 0)`. -/
def NewRuleEngine (validators : List RuleProcessor) : RuleEngine :=
  { processors := [] }

/-- Embeds `RuleEngine.AddRuleProcessor` (receiver mutation modelled as a
functional update): append the processor to the collection. -/
def RuleEngine.AddRuleProcessor (r : RuleEngine) (processor : RuleProcessor) : RuleEngine :=
  { processors := r.processors ++ [processor] }

/-- A dense window inside a sorted timestamp list: indices `i ≤ j` within
range whose timestamp spread is at most `d` while the window holds more
than `k` transactions. -/
def WindowWitness (ts : List Int) (d k : Int) : Prop :=
  ∃ i j : Nat, i ≤ j ∧ j < ts.length ∧
    ts.getD j 0 - ts.getD i 0 ≤ d ∧ k < (j : Int) - (i : Int) + 1

theorem advanceLeftAux_ge (ts : List Int) (d : Int) (right : Nat) :
    ∀ gap left, left ≤ advanceLeftAux ts d right left gap := by
  intro gap
  induction gap with
  | zero => intro left; simp [advanceLeftAux]
  | succ g ih =>
    intro left
    simp only [advanceLeftAux]
    split
    · exact le_trans (Nat.le_succ left) (ih (left + 1))
    · exact le_refl left

theorem advanceLeftAux_le (ts : List Int) (d : Int) (right : Nat) :
    ∀ gap left, advanceLeftAux ts d right left gap ≤ left + gap := by
  intro gap
  induction gap with
  | zero => intro left; simp [advanceLeftAux]
  | succ g ih =>
    intro left
    simp only [advanceLeftAux]
    split
    · exact le_trans (ih (left + 1)) (by omega)
    · omega

theorem advanceLeft_ge (ts : List Int) (d : Int) (right left : Nat) :
    left ≤ advanceLeft ts d right left :=
  advanceLeftAux_ge ts d right _ left

theorem advanceLeft_le (ts : List Int) (d : Int) (right left : Nat)
    (h : left ≤ right + 1) : advanceLeft ts d right left ≤ right + 1 := by
  have := advanceLeftAux_le ts d right (right + 1 - left) left
  unfold advanceLeft
  omega

/-- Stopping early (before the fuel runs out) means the while condition
failed: the current window spread is within the duration. -/
theorem advanceLeftAux_stop (ts : List Int) (d : Int) (right : Nat) :
    ∀ gap left, advanceLeftAux ts d right left gap < left + gap →
      ts.getD right 0 - ts.getD (advanceLeftAux ts d right left gap) 0 ≤ d := by
  intro gap
  induction gap with
  | zero => intro left h; simp [advanceLeftAux] at h
  | succ g ih =>
    intro left h
    by_cases hcond : ts.getD right 0 - ts.getD left 0 > d
    · simp only [advanceLeftAux, if_pos hcond] at h ⊢
      exact ih (left + 1) (by omega)
    · simp only [advanceLeftAux, if_neg hcond] at h ⊢
      omega

theorem advanceLeft_stop (ts : List Int) (d : Int) (right left : Nat)
    (hl : left ≤ right + 1) (h : advanceLeft ts d right left ≤ right) :
    ts.getD right 0 - ts.getD (advanceLeft ts d right left) 0 ≤ d := by
  apply advanceLeftAux_stop
  unfold advanceLeft at h
  omega

/-- Every index discarded by the advance had a window spread exceeding the
duration. -/
theorem advanceLeftAux_discard (ts : List Int) (d : Int) (right : Nat) :
    ∀ gap left l, left ≤ l → l < advanceLeftAux ts d right left gap →
      d < ts.getD right 0 - ts.getD l 0 := by
  intro gap
  induction gap with
  | zero => intro left l h1 h2; simp [advanceLeftAux] at h2; omega
  | succ g ih =>
    intro left l h1 h2
    simp only [advanceLeftAux] at h2
    split at h2
    · rename_i hcond
      rcases Nat.eq_or_lt_of_le h1 with rfl | hlt
      · omega
      · exact ih (left + 1) l hlt h2
    · omega

theorem advanceLeft_discard (ts : List Int) (d : Int) (right left l : Nat)
    (h1 : left ≤ l) (h2 : l < advanceLeft ts d right left) :
    d < ts.getD right 0 - ts.getD l 0 :=
  advanceLeftAux_discard ts d right _ left l h1 h2

/-- Soundness of the sliding window: if the loop reports a violation, then
either some window really is denser than the threshold, or the threshold is
negative and the list non-empty (then even the empty window triggers). -/
theorem slideAux_true_witness (ts : List Int) (p : VelocityPeriod) :
    ∀ rem right left, right + rem = ts.length → left ≤ right + 1 →
      slideAux ts p left right rem = true →
      WindowWitness ts p.duration p.threshold ∨ (p.threshold < 0 ∧ ts ≠ []) := by
  intro rem
  induction rem with
  | zero => intro right left _ _ h; simp [slideAux] at h
  | succ r ih =>
    intro right left hlen hl h
    simp only [slideAux] at h
    split at h
    · rename_i hcond
      have hL1 : advanceLeft ts p.duration right left ≤ right + 1 :=
        advanceLeft_le ts p.duration right left hl
      rcases Nat.lt_or_ge right (advanceLeft ts p.duration right left) with hgt | hle
      · right
        refine ⟨by omega, fun hnil => ?_⟩
        rw [hnil] at hlen
        simp only [List.length_nil] at hlen
        omega
      · left
        exact ⟨advanceLeft ts p.duration right left, right, hle, by omega,
          advanceLeft_stop ts p.duration right left hl hle, hcond⟩
    · refine ih (right + 1) (advanceLeft ts p.duration right left) (by omega) ?_ h
      have := advanceLeft_le ts p.duration right left hl
      omega

/-- With a negative threshold, any non-empty transaction list triggers a
violation at the very first right boundary (the window size, which is
non-negative, already exceeds the threshold). -/
theorem hasViolatedVelocity_of_neg_threshold (ts : List Int) (p : VelocityPeriod)
    (hk : p.threshold < 0) (hne : ts ≠ []) : hasViolatedVelocity ts p = true := by
  obtain ⟨n, hn⟩ : ∃ n, ts.length = n + 1 := by
    cases hts : ts with
    | nil => exact absurd hts hne
    | cons a l => exact ⟨l.length, by simp [hts]⟩
  unfold hasViolatedVelocity
  rw [hn]
  simp only [slideAux]
  rw [if_pos]
  have hL1 : advanceLeft ts p.duration 0 0 ≤ 1 :=
    advanceLeft_le ts p.duration 0 0 (by omega)
  have : ((advanceLeft ts p.duration 0 0 : Nat) : Int) ≤ 1 := by exact_mod_cast hL1
  omega

/-- `getD` on an in-range index of a sorted list is monotone. -/
theorem sorted_getD_mono (ts : List Int) (hs : List.Sorted (· ≤ ·) ts)
    (i j : Nat) (hij : i ≤ j) (hj : j < ts.length) :
    ts.getD i 0 ≤ ts.getD j 0 := by
  have hi : i < ts.length := lt_of_le_of_lt hij hj
  rw [List.getD_eq_getElem?_getD, List.getD_eq_getElem?_getD,
    List.getElem?_eq_getElem hi, List.getElem?_eq_getElem hj]
  exact List.Sorted.rel_get_of_le hs (show (⟨i, hi⟩ : Fin ts.length) ≤ ⟨j, hj⟩ from hij)

/-- Completeness of the sliding window: a window denser than the threshold
is always detected, whatever the loop state, as long as the left boundary
has only discarded indices that can no longer pair with the witness right
boundary. -/
theorem slideAux_true_of_witness (ts : List Int) (p : VelocityPeriod)
    (hs : List.Sorted (· ≤ ·) ts) (i j : Nat) (hij : i ≤ j) (hj : j < ts.length)
    (hspan : ts.getD j 0 - ts.getD i 0 ≤ p.duration)
    (hcount : p.threshold < (j : Int) - (i : Int) + 1) :
    ∀ rem right left, right + rem = ts.length → right ≤ j →
      (∀ l, l < left → p.duration < ts.getD j 0 - ts.getD l 0) →
      slideAux ts p left right rem = true := by
  intro rem
  induction rem with
  | zero => intro right left hlen hr _; omega
  | succ r ih =>
    intro right left hlen hr hK
    have hK' : ∀ l, l < advanceLeft ts p.duration right left →
        p.duration < ts.getD j 0 - ts.getD l 0 := by
      intro l hl
      rcases Nat.lt_or_ge l left with hll | hlg
      · exact hK l hll
      · have hrl : p.duration < ts.getD right 0 - ts.getD l 0 :=
          advanceLeft_discard ts p.duration right left l hlg hl
        have : ts.getD right 0 ≤ ts.getD j 0 :=
          sorted_getD_mono ts hs right j hr hj
        omega
    have hLi : advanceLeft ts p.duration right left ≤ i := by
      by_contra hcon
      have := hK' i (by omega)
      omega
    simp only [slideAux]
    rcases Nat.eq_or_lt_of_le hr with rfl | hrlt
    · rw [if_pos]
      have : ((advanceLeft ts p.duration right left : Nat) : Int) ≤ (i : Int) := by
        exact_mod_cast hLi
      omega
    · split
      · rfl
      · exact ih (right + 1) (advanceLeft ts p.duration right left) (by omega)
          (by omega) hK'

/-- Characterization of the sliding-window rule on a sorted timestamp list:
it reports a violation exactly when some window of spread at most the
duration holds strictly more than `threshold` transactions, or — the
degenerate configuration — the threshold is negative and the user has any
transaction at all. -/
theorem hasViolatedVelocity_iff (ts : List Int) (p : VelocityPeriod)
    (hs : List.Sorted (· ≤ ·) ts) :
    hasViolatedVelocity ts p = true ↔
      WindowWitness ts p.duration p.threshold ∨ (p.threshold < 0 ∧ ts ≠ []) := by
  constructor
  · intro h
    exact slideAux_true_witness ts p ts.length 0 0 (by omega) (by omega) h
  · intro h
    rcases h with ⟨i, j, hij, hj, hspan, hcount⟩ | ⟨hk, hne⟩
    · exact slideAux_true_of_witness ts p hs i j hij hj hspan hcount
        ts.length 0 0 (by omega) (by omega) (by omega)
    · exact hasViolatedVelocity_of_neg_threshold ts p hk hne

/-- The characterization, restated on the two period fields. -/
theorem hasViolatedVelocity_mk_iff (ts : List Int) (d k : Int)
    (hs : List.Sorted (· ≤ ·) ts) :
    hasViolatedVelocity ts (VelocityPeriod.mk d k) = true ↔
      WindowWitness ts d k ∨ (k < 0 ∧ ts ≠ []) :=
  hasViolatedVelocity_iff ts (VelocityPeriod.mk d k) hs

theorem getD_eq_get (ts : List Int) (i : Nat) (h : i < ts.length) :
    ts.getD i 0 = ts.get ⟨i, h⟩ := by
  rw [List.getD_eq_getElem?_getD, List.getElem?_eq_getElem h]
  rfl

theorem getD_shift (ts : List Int) (c : Int) (i : Nat) (h : i < ts.length) :
    (ts.map (fun x => c + x)).getD i 0 = c + ts.getD i 0 := by
  rw [List.getD_eq_getElem?_getD, List.getD_eq_getElem?_getD,
    List.getElem?_eq_getElem h, List.getElem?_eq_getElem (by simpa using h),
    List.getElem_map]
  rfl

/-- Translating all timestamps by a constant does not change the
left-boundary advance (the rule only compares timestamp differences). -/
theorem advanceLeftAux_shift (ts : List Int) (c d : Int) (right : Nat)
    (hr : right < ts.length) :
    ∀ gap left, left + gap ≤ right + 1 →
      advanceLeftAux (ts.map (fun x => c + x)) d right left gap =
        advanceLeftAux ts d right left gap := by
  intro gap
  induction gap with
  | zero => intro left _; simp [advanceLeftAux]
  | succ g ih =>
    intro left hgl
    have hl : left < ts.length := by omega
    simp only [advanceLeftAux, getD_shift ts c right hr, getD_shift ts c left hl]
    have harith : c + ts.getD right 0 - (c + ts.getD left 0) =
        ts.getD right 0 - ts.getD left 0 := by ring
    rw [harith]
    split
    · exact ih (left + 1) (by omega)
    · rfl

theorem advanceLeft_shift (ts : List Int) (c d : Int) (right left : Nat)
    (hr : right < ts.length) (hl : left ≤ right + 1) :
    advanceLeft (ts.map (fun x => c + x)) d right left = advanceLeft ts d right left := by
  unfold advanceLeft
  exact advanceLeftAux_shift ts c d right hr (right + 1 - left) left (by omega)

/-- Translating all timestamps by a constant does not change the sliding
window verdict. -/
theorem slideAux_shift (ts : List Int) (c : Int) (p : VelocityPeriod) :
    ∀ rem right left, right + rem = ts.length → left ≤ right + 1 →
      slideAux (ts.map (fun x => c + x)) p left right rem =
        slideAux ts p left right rem := by
  intro rem
  induction rem with
  | zero => intro right left _ _; simp [slideAux]
  | succ r ih =>
    intro right left hlen hl
    have hr : right < ts.length := by omega
    simp only [slideAux, advanceLeft_shift ts c p.duration right left hr hl]
    split
    · rfl
    · refine ih (right + 1) (advanceLeft ts p.duration right left) (by omega) ?_
      have := advanceLeft_le ts p.duration right left hl
      omega

theorem hasViolatedVelocity_shift (ts : List Int) (c : Int) (p : VelocityPeriod) :
    hasViolatedVelocity (ts.map (fun x => c + x)) p = hasViolatedVelocity ts p := by
  unfold hasViolatedVelocity
  rw [List.length_map]
  exact slideAux_shift ts c p ts.length 0 0 (by omega) (by omega)

/-- Sorting commutes with translating every element by a constant. -/
theorem insertionSort_shift (l : List Int) (c : Int) :
    List.insertionSort (· ≤ ·) (l.map (fun x => c + x)) =
      (List.insertionSort (· ≤ ·) l).map (fun x => c + x) := by
  have hp : List.Perm (List.insertionSort (· ≤ ·) (l.map (fun x => c + x)))
      ((List.insertionSort (· ≤ ·) l).map (fun x => c + x)) :=
    List.Perm.trans (List.perm_insertionSort _ _)
      (((List.perm_insertionSort (· ≤ ·) l).symm).map _)
  have hs1 := List.sorted_insertionSort (· ≤ ·) (l.map (fun x => c + x))
  have hs2 : List.Sorted (· ≤ ·) ((List.insertionSort (· ≤ ·) l).map (fun x => c + x)) :=
    List.Pairwise.map _ (fun a b hab => by omega)
      (List.sorted_insertionSort (· ≤ ·) l)
  exact List.eq_of_perm_of_sorted hp hs1 hs2

theorem subperm_filter (p : Transaction → Bool) {l₁ l₂ : List Transaction}
    (h : List.Subperm l₁ l₂) : List.Subperm (l₁.filter p) (l₂.filter p) := by
  obtain ⟨l, hperm, hsub⟩ := h
  exact ⟨l.filter p, hperm.filter p, hsub.filter p⟩

theorem subperm_map {α β : Type} (f : α → β) {l₁ l₂ : List α}
    (h : List.Subperm l₁ l₂) : List.Subperm (l₁.map f) (l₂.map f) := by
  obtain ⟨l, hperm, hsub⟩ := h
  exact ⟨l.map f, hperm.map f, hsub.map f⟩

/-- The sorted per-user timestamp list of a sub-batch is a sublist of the
sorted per-user timestamp list of any super-batch. -/
theorem sortedTimes_sublist (txs txs' : List Transaction) (u : Nat)
    (h : List.Subperm txs txs') :
    List.Sublist (sortedTimes txs u) (sortedTimes txs' u) := by
  have hmap : List.Subperm ((userTxs txs u).map Transaction.createdAt)
      ((userTxs txs' u).map Transaction.createdAt) :=
    subperm_map Transaction.createdAt (subperm_filter _ h)
  have h1 : List.Subperm (sortedTimes txs u) ((userTxs txs u).map Transaction.createdAt) :=
    (List.perm_insertionSort _ _).subperm
  have h2 : List.Subperm ((userTxs txs' u).map Transaction.createdAt) (sortedTimes txs' u) :=
    ((List.perm_insertionSort _ _).symm).subperm
  have hsp : List.Subperm (sortedTimes txs u) (sortedTimes txs' u) :=
    (h1.trans hmap).trans h2
  exact List.sublist_of_subperm_of_sorted hsp
    (List.sorted_insertionSort _ _) (List.sorted_insertionSort _ _)

/-- An order embedding between index types cannot shrink index gaps. -/
theorem orderEmbedding_gap {n m : Nat} (f : Fin n ↪o Fin m) (a b : Fin n)
    (h : a ≤ b) : (b : Nat) - (a : Nat) ≤ (f b : Nat) - (f a : Nat) := by
  have key : ∀ k (a b : Fin n), (b : Nat) = (a : Nat) + k →
      (f a : Nat) + k ≤ (f b : Nat) := by
    intro k
    induction k with
    | zero =>
      intro a b hab
      have : a = b := Fin.ext (by omega)
      subst this
      omega
    | succ k ih =>
      intro a b hab
      have hb : (a : Nat) + k < n := by have := b.isLt; omega
      have h1 : (f a : Nat) + k ≤ (f ⟨(a : Nat) + k, hb⟩ : Nat) := ih a ⟨(a : Nat) + k, hb⟩ rfl
      have h2 : f ⟨(a : Nat) + k, hb⟩ < f b := by
        apply f.strictMono
        rw [Fin.lt_def]
        simp
        omega
      rw [Fin.lt_def] at h2
      omega
  have hfab : f a ≤ f b := f.monotone h
  rw [Fin.le_def] at hfab
  have := key ((b : Nat) - (a : Nat)) a b (by omega)
  omega

/-- A dense window survives passage to any sorted super-list. -/
theorem windowWitness_sublist (ts ts' : List Int) (d k : Int)
    (h : List.Sublist ts ts') (hw : WindowWitness ts d k) : WindowWitness ts' d k := by
  obtain ⟨f, hf⟩ := (List.sublist_iff_exists_fin_orderEmbedding_get_eq).mp h
  obtain ⟨i, j, hij, hj, hspan, hcount⟩ := hw
  have hi : i < ts.length := lt_of_le_of_lt hij hj
  refine ⟨(f ⟨i, hi⟩ : Nat), (f ⟨j, hj⟩ : Nat), ?_, (f ⟨j, hj⟩).isLt, ?_, ?_⟩
  · have : f ⟨i, hi⟩ ≤ f ⟨j, hj⟩ := f.monotone (by exact hij)
    rwa [Fin.le_def] at this
  · rw [getD_eq_get ts' _ (f ⟨i, hi⟩).isLt, getD_eq_get ts' _ (f ⟨j, hj⟩).isLt]
    have hgi : ts'.get ⟨(f ⟨i, hi⟩ : Nat), (f ⟨i, hi⟩).isLt⟩ = ts.get ⟨i, hi⟩ := by
      rw [← hf ⟨i, hi⟩]
    have hgj : ts'.get ⟨(f ⟨j, hj⟩ : Nat), (f ⟨j, hj⟩).isLt⟩ = ts.get ⟨j, hj⟩ := by
      rw [← hf ⟨j, hj⟩]
    rw [hgi, hgj, ← getD_eq_get ts i hi, ← getD_eq_get ts j hj]
    exact hspan
  · have hgap : j - i ≤ (f ⟨j, hj⟩ : Nat) - (f ⟨i, hi⟩ : Nat) :=
      orderEmbedding_gap f ⟨i, hi⟩ ⟨j, hj⟩ (by exact hij)
    have hle : f ⟨i, hi⟩ ≤ f ⟨j, hj⟩ := f.monotone (by exact hij)
    rw [Fin.le_def] at hle
    omega

/-- A violation verdict on a sorted timestamp list survives passage to any
sorted super-list: the pillar of monotonicity. -/
theorem hasViolatedVelocity_mono (ts ts' : List Int) (p : VelocityPeriod)
    (hs : List.Sorted (· ≤ ·) ts) (hs' : List.Sorted (· ≤ ·) ts')
    (hsub : List.Sublist ts ts') (h : hasViolatedVelocity ts p = true) :
    hasViolatedVelocity ts' p = true := by
  rw [hasViolatedVelocity_iff ts p hs] at h
  rw [hasViolatedVelocity_iff ts' p hs']
  rcases h with hw | ⟨hk, hne⟩
  · exact Or.inl (windowWitness_sublist ts ts' p.duration p.threshold hsub hw)
  · refine Or.inr ⟨hk, fun hnil => hne ?_⟩
    rw [hnil] at hsub
    exact List.sublist_nil.mp hsub

/-- The flagged set ignores the order in which per-user results are folded:
the fold is a set insertion, commutative and idempotent. -/
theorem flaggedFrom_perm (periods : List VelocityPeriod) (txs : List Transaction)
    (order order' : List Nat) (h : order.Perm order') :
    flaggedFrom periods txs order = flaggedFrom periods txs order' :=
  List.toFinset_eq_of_perm _ _ (h.filter _)

/-- The per-user sorted timestamp list is invariant under permuting the
input batch: the partition filter and the timestamp projection respect
permutation, and sorting a permutation of a multiset of integers yields the
same list. -/
theorem sortedTimes_perm (txs txs' : List Transaction) (u : Nat)
    (h : txs.Perm txs') : sortedTimes txs u = sortedTimes txs' u := by
  have hp : List.Perm (sortedTimes txs u) (sortedTimes txs' u) :=
    List.Perm.trans (List.perm_insertionSort _ _)
      (List.Perm.trans ((h.filter _).map _) ((List.perm_insertionSort _ _).symm))
  exact List.eq_of_perm_of_sorted hp
    (List.sorted_insertionSort _ _) (List.sorted_insertionSort _ _)

/-- The sequential flagged set is invariant under permuting the input
batch. -/
theorem flaggedFrom_batch_perm (periods : List VelocityPeriod)
    (txs txs' : List Transaction) (h : txs.Perm txs') :
    flaggedFrom periods txs (userIds txs) = flaggedFrom periods txs' (userIds txs') := by
  have hids : (userIds txs).Perm (userIds txs') := (h.map _).dedup
  unfold flaggedFrom
  rw [List.filter_congr
    (fun u _ => by rw [sortedTimes_perm txs txs' u h])]
  exact List.toFinset_eq_of_perm _ _ (hids.filter _)

section SanityChecks

example :
    hasViolatedVelocity [0, hourNs, 2 * hourNs, 3 * hourNs] (NewVelocityPeriod weekNs 3) = true := by
  decide

example :
    hasViolatedVelocity [0, hourNs, 2 * hourNs] (NewVelocityPeriod weekNs 3) = false := by
  decide

example :
    hasViolatedVelocity [0, hourNs, 8 * dayNs] (NewVelocityPeriod weekNs 2) = false := by
  decide

example :
    (NewVelocityValidator [NewVelocityPeriod weekNs 2]).Process
      [⟨1, 100, "FR", 0⟩, ⟨1, 200, "FR", hourNs⟩, ⟨1, 300, "FR", 2 * hourNs⟩,
       ⟨2, 150, "DE", 3 * hourNs⟩] = {1} := by
  decide

end SanityChecks

/-- Claim C1: for every transaction list, period list, and positive worker
count, the sequential, worker-pool, and pipeline evaluators return the
identical flagged-user set under a non-cancelled context, whatever order
the per-user results are folded in (any permutation of the distinct user
ids). -/
theorem claim_C1_evaluators_agree (periods : List VelocityPeriod)
    (txs : List Transaction) (wc : Int) (order : List Nat)
    (hwc : 0 < wc) (horder : order.Perm (userIds txs)) :
    (WorkerVelocityProcessor.mk periods wc).ProcessIn txs order =
      (VelocityProcessor.mk periods).Process txs ∧
    (ConcurrentVelocityProcessor.mk periods wc).ProcessIn txs order =
      (VelocityProcessor.mk periods).Process txs := by
  have hneg : ¬ (wc ≤ 0) := by omega
  constructor
  · show (if wc ≤ 0 then ∅ else flaggedFrom periods txs order) = _
    rw [if_neg hneg]
    exact flaggedFrom_perm periods txs order (userIds txs) horder
  · show (if wc ≤ 0 then ∅ else flaggedFrom periods txs order) = _
    rw [if_neg hneg]
    exact flaggedFrom_perm periods txs order (userIds txs) horder

/-- Witness for claim C1 at a concrete batch: two users, one violating,
with the fold order reversed relative to the canonical user order. -/
theorem claim_C1_witness :
    (WorkerVelocityProcessor.mk [NewVelocityPeriod weekNs 2] 2).ProcessIn
      [⟨1, 100, "FR", 0⟩, ⟨1, 200, "FR", hourNs⟩, ⟨1, 300, "FR", 2 * hourNs⟩,
       ⟨2, 150, "DE", 3 * hourNs⟩] [2, 1] =
      (VelocityProcessor.mk [NewVelocityPeriod weekNs 2]).Process
      [⟨1, 100, "FR", 0⟩, ⟨1, 200, "FR", hourNs⟩, ⟨1, 300, "FR", 2 * hourNs⟩,
       ⟨2, 150, "DE", 3 * hourNs⟩] :=
  (claim_C1_evaluators_agree [NewVelocityPeriod weekNs 2]
    [⟨1, 100, "FR", 0⟩, ⟨1, 200, "FR", hourNs⟩, ⟨1, 300, "FR", 2 * hourNs⟩,
     ⟨2, 150, "DE", 3 * hourNs⟩] 2 [2, 1] (by decide) (by decide)).1

/-- Counterexample to claim C2 as stated: the pipeline constructor
`NewConcurrentVelocityProcessor` does not substitute the default worker
count, and with zero workers its `Process` drops every violation, so the
flagged set differs from the one computed with a positive worker count. -/
theorem claim_C2_counterexample :
    ¬ ((NewConcurrentVelocityProcessor [NewVelocityPeriod weekNs 2] 0).Process
        [⟨1, 100, "FR", 0⟩, ⟨1, 200, "FR", hourNs⟩, ⟨1, 300, "FR", 2 * hourNs⟩] =
      (NewConcurrentVelocityProcessor [NewVelocityPeriod weekNs 2] 4).Process
        [⟨1, 100, "FR", 0⟩, ⟨1, 200, "FR", hourNs⟩, ⟨1, 300, "FR", 2 * hourNs⟩]) := by
  decide

/-- Claim C2 as amended: `NewWorkerVelocityProcessor` clamps a non-positive
worker count to the default of 4, so its `Process` agrees with the
sequential evaluator; `NewConcurrentVelocityProcessor` stores the worker
count unchanged, and with a non-positive worker count its `Process` returns
the empty set. -/
theorem claim_C2_worker_count_default (periods : List VelocityPeriod) (wc : Int)
    (hwc : wc ≤ 0) :
    (NewWorkerVelocityProcessor periods wc).WorkerCount = 4 ∧
    (∀ txs : List Transaction, (NewWorkerVelocityProcessor periods wc).Process txs =
      (VelocityProcessor.mk periods).Process txs) ∧
    (NewConcurrentVelocityProcessor periods wc).WorkerCount = wc ∧
    (∀ txs : List Transaction,
      (NewConcurrentVelocityProcessor periods wc).Process txs = ∅) := by
  refine ⟨?_, ?_, rfl, ?_⟩
  · unfold NewWorkerVelocityProcessor
    rw [if_pos hwc]
  · intro txs
    unfold NewWorkerVelocityProcessor
    rw [if_pos hwc]
    show (if (4 : Int) ≤ 0 then ∅ else flaggedFrom periods txs (userIds txs)) = _
    rw [if_neg (by omega)]
    rfl
  · intro txs
    show (if wc ≤ 0 then ∅ else flaggedFrom periods txs (userIds txs)) = ∅
    rw [if_pos hwc]

/-- Witness for the amended claim C2 at worker count 0. -/
theorem claim_C2_witness :
    (NewWorkerVelocityProcessor [NewVelocityPeriod weekNs 2] 0).WorkerCount = 4 ∧
    (NewWorkerVelocityProcessor [NewVelocityPeriod weekNs 2] 0).Process
        [⟨1, 100, "FR", 0⟩, ⟨1, 200, "FR", hourNs⟩, ⟨1, 300, "FR", 2 * hourNs⟩] =
      (VelocityProcessor.mk [NewVelocityPeriod weekNs 2]).Process
        [⟨1, 100, "FR", 0⟩, ⟨1, 200, "FR", hourNs⟩, ⟨1, 300, "FR", 2 * hourNs⟩] ∧
    (NewConcurrentVelocityProcessor [NewVelocityPeriod weekNs 2] 0).Process
        [⟨1, 100, "FR", 0⟩, ⟨1, 200, "FR", hourNs⟩, ⟨1, 300, "FR", 2 * hourNs⟩] = ∅ := by
  have h := claim_C2_worker_count_default [NewVelocityPeriod weekNs 2] 0 (by omega)
  exact ⟨h.1, h.2.1 _, h.2.2.2 _⟩

/-- Claim C3: the window comparison is strictly greater-than the threshold.
On a sorted timestamp list with a non-negative threshold `k`: if every
window of timestamp spread at most `d` holds at most `k` transactions, the
rule reports no violation; while any window of spread at most `d` holding
at least `k + 1` transactions makes it report one. -/
theorem claim_C3_strict_threshold (ts : List Int) (d k : Int)
    (hs : List.Sorted (· ≤ ·) ts) (hk : 0 ≤ k) :
    ((∀ i j : Nat, i ≤ j → j < ts.length → ts.getD j 0 - ts.getD i 0 ≤ d →
        (j : Int) - (i : Int) + 1 ≤ k) →
      hasViolatedVelocity ts (VelocityPeriod.mk d k) = false) ∧
    (∀ i j : Nat, i ≤ j → j < ts.length → ts.getD j 0 - ts.getD i 0 ≤ d →
      k + 1 ≤ (j : Int) - (i : Int) + 1 →
      hasViolatedVelocity ts (VelocityPeriod.mk d k) = true) := by
  constructor
  · intro hno
    by_contra hcon
    have htrue : hasViolatedVelocity ts (VelocityPeriod.mk d k) = true := by
      cases h : hasViolatedVelocity ts (VelocityPeriod.mk d k)
      · exact absurd h hcon
      · rfl
    rw [hasViolatedVelocity_mk_iff ts d k hs] at htrue
    rcases htrue with ⟨i, j, hij, hj, hspan, hcount⟩ | ⟨hkneg, _⟩
    · have := hno i j hij hj hspan
      omega
    · omega
  · intro i j hij hj hspan hcount
    rw [hasViolatedVelocity_mk_iff ts d k hs]
    exact Or.inl ⟨i, j, hij, hj, hspan, by omega⟩

/-- Witness for claim C3: three timestamps within a spread of 2 against a
duration of 10 and threshold 2: the window of size 3 violates. -/
theorem claim_C3_witness :
    hasViolatedVelocity [0, 1, 2] (VelocityPeriod.mk 10 2) = true :=
  (claim_C3_strict_threshold [0, 1, 2] 10 2 (by decide) (by decide)).2 0 2
    (by decide) (by decide) (by decide) (by decide)

/-- Claim C4: with the single period (7 days, threshold 2), a user with
transactions at `t`, `t + 1` hour and `t + 8` days is not flagged by any
evaluator: the third transaction never shares a 7-day window with the
first two, so no window exceeds size 2. -/
theorem claim_C4_third_transaction_outside_window (t a₁ a₂ a₃ : Int)
    (c₁ c₂ c₃ : String) (wc : Int) :
    (VelocityProcessor.mk [NewVelocityPeriod weekNs 2]).Process
      [⟨1, a₁, c₁, t⟩, ⟨1, a₂, c₂, t + hourNs⟩, ⟨1, a₃, c₃, t + 8 * dayNs⟩] = ∅ ∧
    (WorkerVelocityProcessor.mk [NewVelocityPeriod weekNs 2] wc).Process
      [⟨1, a₁, c₁, t⟩, ⟨1, a₂, c₂, t + hourNs⟩, ⟨1, a₃, c₃, t + 8 * dayNs⟩] = ∅ ∧
    (ConcurrentVelocityProcessor.mk [NewVelocityPeriod weekNs 2] wc).Process
      [⟨1, a₁, c₁, t⟩, ⟨1, a₂, c₂, t + hourNs⟩, ⟨1, a₃, c₃, t + 8 * dayNs⟩] = ∅ := by
  set txs : List Transaction :=
    [⟨1, a₁, c₁, t⟩, ⟨1, a₂, c₂, t + hourNs⟩, ⟨1, a₃, c₃, t + 8 * dayNs⟩] with htxs
  have hmap : (userTxs txs 1).map Transaction.createdAt =
      List.map (fun x => t + x) [0, hourNs, 8 * dayNs] := by
    simp [htxs, userTxs]
  have hsorted : sortedTimes txs 1 =
      (List.insertionSort (· ≤ ·) [0, hourNs, 8 * dayNs]).map (fun x => t + x) := by
    unfold sortedTimes
    rw [hmap, insertionSort_shift]
  have hflag : hasViolatedVelocityPeriods [NewVelocityPeriod weekNs 2]
      (sortedTimes txs 1) = false := by
    unfold hasViolatedVelocityPeriods
    rw [hsorted]
    simp only [List.any_cons, List.any_nil, Bool.or_false]
    rw [hasViolatedVelocity_shift]
    decide
  have hid : userIds txs = [1] := rfl
  have hcore : flaggedFrom [NewVelocityPeriod weekNs 2] txs (userIds txs) = ∅ := by
    rw [hid]
    unfold flaggedFrom
    simp [hflag]
  refine ⟨hcore, ?_, ?_⟩
  · show (if wc ≤ 0 then ∅ else flaggedFrom [NewVelocityPeriod weekNs 2] txs (userIds txs)) = ∅
    rcases le_or_lt wc 0 with h | h
    · rw [if_pos h]
    · rw [if_neg (by omega), hcore]
  · show (if wc ≤ 0 then ∅ else flaggedFrom [NewVelocityPeriod weekNs 2] txs (userIds txs)) = ∅
    rcases le_or_lt wc 0 with h | h
    · rw [if_pos h]
    · rw [if_neg (by omega), hcore]

/-- Claim C5: adding transactions (for the flagged user or anyone else)
never removes a flagged user — the flagged set is monotone under extending
the batch (any super-multiset of the input). -/
theorem claim_C5_monotonicity (v : VelocityProcessor) (txs txs' : List Transaction)
    (u : Nat) (hsub : List.Subperm txs txs') (hu : u ∈ v.Process txs) :
    u ∈ v.Process txs' := by
  have hmem : u ∈ userIds txs ∧
      hasViolatedVelocityPeriods v.Periods (sortedTimes txs u) = true := by
    simpa [VelocityProcessor.Process, flaggedFrom, List.mem_filter] using hu
  have hid : u ∈ userIds txs' := by
    have h1 : u ∈ txs.map Transaction.userId := List.mem_dedup.mp hmem.1
    obtain ⟨tx, htx, rfl⟩ := List.mem_map.mp h1
    exact List.mem_dedup.mpr (List.mem_map.mpr ⟨tx, hsub.subset htx, rfl⟩)
  have hflag : hasViolatedVelocityPeriods v.Periods (sortedTimes txs' u) = true := by
    obtain ⟨p, hp, hviol⟩ := List.any_eq_true.mp hmem.2
    exact List.any_eq_true.mpr ⟨p, hp,
      hasViolatedVelocity_mono (sortedTimes txs u) (sortedTimes txs' u) p
        (List.sorted_insertionSort _ _) (List.sorted_insertionSort _ _)
        (sortedTimes_sublist txs txs' u hsub) hviol⟩
  simp only [VelocityProcessor.Process, flaggedFrom, List.mem_toFinset, List.mem_filter]
  exact ⟨hid, hflag⟩

/-- Witness for claim C5: the flagged user 1 stays flagged after a second
user's transaction is appended to the batch. -/
theorem claim_C5_witness :
    1 ∈ (VelocityProcessor.mk [NewVelocityPeriod weekNs 2]).Process
      ([⟨1, 100, "FR", 0⟩, ⟨1, 200, "FR", hourNs⟩, ⟨1, 300, "FR", 2 * hourNs⟩] ++
        [⟨2, 150, "DE", 3 * hourNs⟩]) := by
  have hsub : List.Subperm
      [(⟨1, 100, "FR", 0⟩ : Transaction), ⟨1, 200, "FR", hourNs⟩, ⟨1, 300, "FR", 2 * hourNs⟩]
      ([⟨1, 100, "FR", 0⟩, ⟨1, 200, "FR", hourNs⟩, ⟨1, 300, "FR", 2 * hourNs⟩] ++
        [⟨2, 150, "DE", 3 * hourNs⟩]) :=
    ⟨_, List.Perm.refl _, List.sublist_append_left _ _⟩
  have hu : 1 ∈ (VelocityProcessor.mk [NewVelocityPeriod weekNs 2]).Process
      [⟨1, 100, "FR", 0⟩, ⟨1, 200, "FR", hourNs⟩, ⟨1, 300, "FR", 2 * hourNs⟩] := by decide
  exact claim_C5_monotonicity (VelocityProcessor.mk [NewVelocityPeriod weekNs 2])
    _ _ 1 hsub hu

/-- Claim C6: every evaluator returns the same flagged set on any
permutation of the input batch — in particular on out-of-order timestamps —
because each user's transactions are sorted by timestamp before the
sliding window runs. -/
theorem claim_C6_permutation_invariance (periods : List VelocityPeriod) (wc : Int)
    (txs txs' : List Transaction) (hperm : txs.Perm txs') :
    (VelocityProcessor.mk periods).Process txs =
      (VelocityProcessor.mk periods).Process txs' ∧
    (WorkerVelocityProcessor.mk periods wc).Process txs =
      (WorkerVelocityProcessor.mk periods wc).Process txs' ∧
    (ConcurrentVelocityProcessor.mk periods wc).Process txs =
      (ConcurrentVelocityProcessor.mk periods wc).Process txs' := by
  have hcore := flaggedFrom_batch_perm periods txs txs' hperm
  refine ⟨hcore, ?_, ?_⟩
  · show (if wc ≤ 0 then ∅ else flaggedFrom periods txs (userIds txs)) =
      (if wc ≤ 0 then ∅ else flaggedFrom periods txs' (userIds txs'))
    rw [hcore]
  · show (if wc ≤ 0 then ∅ else flaggedFrom periods txs (userIds txs)) =
      (if wc ≤ 0 then ∅ else flaggedFrom periods txs' (userIds txs'))
    rw [hcore]

/-- Witness for claim C6: one user's transactions supplied out of timestamp
order produce the same flagged set as the pre-sorted batch. -/
theorem claim_C6_witness :
    (VelocityProcessor.mk [NewVelocityPeriod weekNs 3]).Process
      [⟨1, 400, "FR", 3 * hourNs⟩, ⟨1, 100, "FR", 0⟩, ⟨1, 300, "FR", 2 * hourNs⟩,
       ⟨1, 200, "FR", hourNs⟩] =
      (VelocityProcessor.mk [NewVelocityPeriod weekNs 3]).Process
      [⟨1, 100, "FR", 0⟩, ⟨1, 200, "FR", hourNs⟩, ⟨1, 300, "FR", 2 * hourNs⟩,
       ⟨1, 400, "FR", 3 * hourNs⟩] :=
  (claim_C6_permutation_invariance [NewVelocityPeriod weekNs 3] 1
    [⟨1, 400, "FR", 3 * hourNs⟩, ⟨1, 100, "FR", 0⟩, ⟨1, 300, "FR", 2 * hourNs⟩,
     ⟨1, 200, "FR", hourNs⟩]
    [⟨1, 100, "FR", 0⟩, ⟨1, 200, "FR", hourNs⟩, ⟨1, 300, "FR", 2 * hourNs⟩,
     ⟨1, 400, "FR", 3 * hourNs⟩] (by decide)).1

/-- Claim C7: an empty transaction list or an empty period list yields an
empty flagged set for every evaluator — handled by policy, the total
functions return the empty set rather than failing. -/
theorem claim_C7_degenerate_inputs (periods : List VelocityPeriod) (wc : Int)
    (txs : List Transaction) :
    ((VelocityProcessor.mk periods).Process [] = ∅ ∧
     (WorkerVelocityProcessor.mk periods wc).Process [] = ∅ ∧
     (ConcurrentVelocityProcessor.mk periods wc).Process [] = ∅) ∧
    ((VelocityProcessor.mk []).Process txs = ∅ ∧
     (WorkerVelocityProcessor.mk [] wc).Process txs = ∅ ∧
     (ConcurrentVelocityProcessor.mk [] wc).Process txs = ∅) := by
  have hempty : flaggedFrom periods ([] : List Transaction) (userIds []) = ∅ := rfl
  have hnop : flaggedFrom [] txs (userIds txs) = ∅ := by
    unfold flaggedFrom hasViolatedVelocityPeriods
    simp
  constructor
  · refine ⟨hempty, ?_, ?_⟩
    · show (if wc ≤ 0 then ∅ else flaggedFrom periods ([] : List Transaction) (userIds [])) = ∅
      rcases le_or_lt wc 0 with h | h
      · rw [if_pos h]
      · rw [if_neg (by omega), hempty]
    · show (if wc ≤ 0 then ∅ else flaggedFrom periods ([] : List Transaction) (userIds [])) = ∅
      rcases le_or_lt wc 0 with h | h
      · rw [if_pos h]
      · rw [if_neg (by omega), hempty]
  · refine ⟨hnop, ?_, ?_⟩
    · show (if wc ≤ 0 then ∅ else flaggedFrom [] txs (userIds txs)) = ∅
      rcases le_or_lt wc 0 with h | h
      · rw [if_pos h]
      · rw [if_neg (by omega), hnop]
    · show (if wc ≤ 0 then ∅ else flaggedFrom [] txs (userIds txs)) = ∅
      rcases le_or_lt wc 0 with h | h
      · rw [if_pos h]
      · rw [if_neg (by omega), hnop]

/-- Claim C9: `NewRuleEngine` ignores its `validators` argument and starts
with an empty processor collection; a processor takes part only once
registered through `AddRuleProcessor`, which appends it. -/
theorem claim_C9_engine_ignores_validators (validators : List RuleProcessor)
    (p : RuleProcessor) :
    (NewRuleEngine validators).processors = [] ∧
    ((NewRuleEngine validators).AddRuleProcessor p).processors = [p] :=
  ⟨rfl, rfl⟩
